import Mathlib

/-!
Verification of the `randgraph` package (random graph generators).

The Go source is embedded shallowly:

* `Float64` models a Go `float64` as far as the program observes it: a
  rational value or NaN, with the IEEE rule that any comparison against
  NaN is false (`Float64.flt`).
* A random source (`math/rand/v2.Rand`) is modelled as an abstract tape
  `ℕ → Draw`: position `k` holds both the value returned if the `k`-th
  call on the source is `Float64()` (a rational in `[0,1)`) and the value
  returned if it is `IntN n` (a number `< n`), so one tape covers every
  interleaving of the two calls.  `ValidTape` states the contracts the
  Go standard library guarantees for those draws.
* `Binomial` carries the exported fields of the Go struct; the labelling
  functions `VertexLabel`/`EdgeLabel` are `Option`-valued to model nil
  function values, and labels on vertices/edges are `Option α` to model
  a nil `any`.
* `Binomial.vertices` and `Binomial.edges` are the pure counterparts of
  the channel-producing methods `Vertices`/`Edges`: they return the full
  finite list of elements sent on the channel, in emission order.
  `Binomial.edges` additionally records (in `GenOut.bounds`) the bound
  passed to each `IntN` call, in call order, so that safety of those
  calls can be stated.
-/

namespace Randgraph

/-- A Go `float64` as observed by this program: a rational value or NaN. -/
inductive Float64 where
  | val : ℚ → Float64
  | nan : Float64
deriving DecidableEq

/-- Go's `<` on float64: false whenever either operand is NaN. -/
def Float64.flt : Float64 → Float64 → Bool
  | .val a, .val b => decide (a < b)
  | _, _ => false

/-- Membership of a float in the real interval [0,1] (NaN is not a member). -/
def Float64.mem01 : Float64 → Prop
  | .val q => 0 ≤ q ∧ q ≤ 1
  | .nan => False

/-- One cell of the abstract random tape: the value the `k`-th call on the
random source returns, whether it is consumed as a `Float64()` draw (`f`)
or as an `IntN n` draw (`i n`). -/
structure Draw where
  f : ℚ
  i : ℕ → ℕ

/-- The contracts of `rand.Float64` (result in `[0,1)`) and `rand.IntN`
(result in `[0,n)` for positive `n`). -/
def ValidTape (tape : ℕ → Draw) : Prop :=
  ∀ k, 0 ≤ (tape k).f ∧ (tape k).f < 1 ∧ ∀ n, 0 < n → (tape k).i n < n

/-- A vertex of a graph (Go struct `Vertex`); `Label = none` models a nil
`any` value. -/
structure Vertex (α : Type) where
  ID : ℕ
  Label : Option α
deriving DecidableEq

/-- An edge of a graph (Go struct `Edge`). -/
structure Edge (α : Type) where
  ID : ℕ
  V0 : ℕ
  V1 : ℕ
  Directed : Bool
  Label : Option α
deriving DecidableEq

/-- The exported configuration of the Go struct `Binomial`.  `V` and `N`
are the (validated, hence nonnegative) vertex and trial counts. -/
structure Binomial (α : Type) where
  V : ℕ
  N : ℕ
  P : Float64
  Loops : Bool
  Multiedges : Bool
  Directed : Bool
  VertexLabel : Option (ℕ → α)
  EdgeLabel : Option (ℕ → ℕ → ℕ → α)

/-- `NewBinomial(v, n, p)`: validation and construction, following the Go
source line by line.  The zero values of the remaining fields (false
flags, nil labelling functions) are those of the Go composite literal. -/
def NewBinomial (α : Type) (v n : ℤ) (p : Float64) : Except String (Binomial α) :=
  if v < 0 then .error "invalid number of vertices"
  else if n < 0 then .error "invalid number of trials"
  else if p.flt (.val 0) || (Float64.val 1).flt p then .error "invalid success probability"
  else .ok ⟨v.toNat, n.toNat, p, false, false, false, none, none⟩

/-- The vertex stream of `Binomial.Vertices`: for `i` in `0,…,V-1`, the
vertex with ID `i`, labelled by `VertexLabel i` when that function is set. -/
def Binomial.vertices {α : Type} (b : Binomial α) : List (Vertex α) :=
  (List.range b.V).map fun i => ⟨i, b.VertexLabel.map fun f => f i⟩

/-- Result of the inner trial loop for one tail vertex: the edges emitted,
the bounds passed to `IntN` (in call order), the tape position after the
loop, and the edge-ID counter after the loop. -/
structure TrialsOut (α : Type) where
  edges : List (Edge α)
  bounds : List ℕ
  k : ℕ
  id : ℕ

/-- The inner loop of `Binomial.Edges` for a fixed tail: run `fuel`
Bernoulli trials.  A trial draws `Float64()` at tape position `k` and
compares it with `P`; on success it draws `IntN (V - start)` at the next
position to pick `head`, discards the trial when multiedges are disabled
and `head` was already used for this tail, and otherwise emits an edge
with the current ID counter. -/
def trials {α : Type} (b : Binomial α) (tape : ℕ → Draw) (tail start : ℕ) :
    ℕ → ℕ → ℕ → List ℕ → TrialsOut α
  | 0, k, id, _ => ⟨[], [], k, id⟩
  | fuel + 1, k, id, heads =>
    if Float64.flt (.val (tape k).f) b.P then
      let head := start + (tape (k + 1)).i (b.V - start)
      if !b.Multiedges && decide (head ∈ heads) then
        let out := trials b tape tail start fuel (k + 2) id heads
        ⟨out.edges, (b.V - start) :: out.bounds, out.k, out.id⟩
      else
        let heads' := if b.Multiedges then heads else head :: heads
        let e : Edge α := ⟨id, tail, head, b.Directed, b.EdgeLabel.map fun f => f id tail head⟩
        let out := trials b tape tail start fuel (k + 2) (id + 1) heads'
        ⟨e :: out.edges, (b.V - start) :: out.bounds, out.k, out.id⟩
    else
      trials b tape tail start fuel (k + 1) id heads

/-- The edges emitted by a generation run together with the bounds passed
to the `IntN` draws, in order. -/
structure GenOut (α : Type) where
  edges : List (Edge α)
  bounds : List ℕ

/-- The outer loop of `Binomial.Edges` over tails, with `fuel` iterations
remaining (`fuel + tail = V` at the top-level call).  When loops are
disabled and `tail` is the last vertex the Go code breaks out of the
loop; otherwise the admissible head range starts at `0` (loops allowed)
or `tail + 1`. -/
def edgesFrom {α : Type} (b : Binomial α) (tape : ℕ → Draw) :
    ℕ → ℕ → ℕ → ℕ → GenOut α
  | 0, _, _, _ => ⟨[], []⟩
  | fuel + 1, tail, k, id =>
    if b.Loops then
      let out := trials b tape tail 0 b.N k id []
      let rest := edgesFrom b tape fuel (tail + 1) out.k out.id
      ⟨out.edges ++ rest.edges, out.bounds ++ rest.bounds⟩
    else if tail = b.V - 1 then ⟨[], []⟩
    else
      let out := trials b tape tail (tail + 1) b.N k id []
      let rest := edgesFrom b tape fuel (tail + 1) out.k out.id
      ⟨out.edges ++ rest.edges, out.bounds ++ rest.bounds⟩

/-- The edge stream of `Binomial.Edges` for one generation run consuming
the random tape from position 0, with the edge-ID counter starting at 0. -/
def Binomial.edges {α : Type} (b : Binomial α) (tape : ℕ → Draw) : List (Edge α) :=
  (edgesFrom b tape b.V 0 0 0).edges

/-- The bounds passed to `IntN` during one generation run, in call order. -/
def Binomial.edgesBounds {α : Type} (b : Binomial α) (tape : ℕ → Draw) : List ℕ :=
  (edgesFrom b tape b.V 0 0 0).bounds

/-- Every edge emitted by the trial loop for tail `tail` has `V0 = tail`. -/
theorem trials_V0 {α : Type} (b : Binomial α) (tape : ℕ → Draw) (tail start : ℕ) :
    ∀ fuel k id heads, ∀ e ∈ (trials b tape tail start fuel k id heads).edges, e.V0 = tail := by
  intro fuel
  induction fuel with
  | zero => intro k id heads e he; simp [trials] at he
  | succ n ih =>
    intro k id heads e he
    simp only [trials] at he
    split at he
    · split at he
      · exact ih _ _ _ e he
      · rcases List.mem_cons.mp he with h | h
        · subst h; rfl
        · exact ih _ _ _ e h
    · exact ih _ _ _ e he

/-- Every bound recorded by the trial loop equals `V - start`. -/
theorem trials_bounds {α : Type} (b : Binomial α) (tape : ℕ → Draw) (tail start : ℕ) :
    ∀ fuel k id heads, ∀ x ∈ (trials b tape tail start fuel k id heads).bounds,
      x = b.V - start := by
  intro fuel
  induction fuel with
  | zero => intro k id heads x hx; simp [trials] at hx
  | succ n ih =>
    intro k id heads x hx
    simp only [trials] at hx
    split at hx
    · split at hx
      · rcases List.mem_cons.mp hx with h | h
        · exact h
        · exact ih _ _ _ x h
      · rcases List.mem_cons.mp hx with h | h
        · exact h
        · exact ih _ _ _ x h
    · exact ih _ _ _ x hx

/-- With a valid tape and `start < V`, every edge emitted by the trial loop
has its head in the admissible range `[start, V)`. -/
theorem trials_V1_range {α : Type} (b : Binomial α) (tape : ℕ → Draw) (tail start : ℕ)
    (hv : ValidTape tape) (hs : start < b.V) :
    ∀ fuel k id heads, ∀ e ∈ (trials b tape tail start fuel k id heads).edges,
      start ≤ e.V1 ∧ e.V1 < b.V := by
  intro fuel
  induction fuel with
  | zero => intro k id heads e he; simp [trials] at he
  | succ n ih =>
    intro k id heads e he
    simp only [trials] at he
    split at he
    · split at he
      · exact ih _ _ _ e he
      · rcases List.mem_cons.mp he with h | h
        · subst h
          refine ⟨Nat.le_add_right _ _, ?_⟩
          have hb : 0 < b.V - start := Nat.sub_pos_of_lt hs
          have hlt := ((hv (k + 1)).2.2) (b.V - start) hb
          calc start + (tape (k + 1)).i (b.V - start)
              < start + (b.V - start) := Nat.add_lt_add_left hlt start
            _ = b.V := Nat.add_sub_cancel' hs.le
        · exact ih _ _ _ e h
    · exact ih _ _ _ e he

/-- The trial loop assigns consecutive IDs starting at the incoming counter
and returns the counter advanced by the number of edges emitted. -/
theorem trials_ids {α : Type} (b : Binomial α) (tape : ℕ → Draw) (tail start : ℕ) :
    ∀ fuel k id heads,
      (trials b tape tail start fuel k id heads).edges.map Edge.ID =
        List.range' id (trials b tape tail start fuel k id heads).edges.length ∧
      (trials b tape tail start fuel k id heads).id =
        id + (trials b tape tail start fuel k id heads).edges.length := by
  intro fuel
  induction fuel with
  | zero => intro k id heads; simp [trials]
  | succ n ih =>
    intro k id heads
    simp only [trials]
    split
    · split
      · exact ih _ _ _
      · obtain ⟨h1, h2⟩ := ih (k + 2) (id + 1)
          (if b.Multiedges = true then heads
           else (start + (tape (k + 1)).i (b.V - start)) :: heads)
        refine ⟨?_, ?_⟩
        · simp only [List.map_cons, List.length_cons, List.range'_succ, h1]
        · simp only [List.length_cons, h2]; omega
    · exact ih _ _ _

/-- With multiedges disabled, the trial loop for one tail never reuses a
head from the incoming used-set and never emits the same head twice. -/
theorem trials_dedup {α : Type} (b : Binomial α) (tape : ℕ → Draw) (tail start : ℕ)
    (hm : b.Multiedges = false) :
    ∀ fuel k id heads,
      (∀ e ∈ (trials b tape tail start fuel k id heads).edges, e.V1 ∉ heads) ∧
      (trials b tape tail start fuel k id heads).edges.Pairwise
        (fun e1 e2 => e1.V1 ≠ e2.V1) := by
  intro fuel
  induction fuel with
  | zero => intro k id heads; simp [trials]
  | succ n ih =>
    intro k id heads
    simp only [trials]
    split
    · split
      · exact ih _ _ _
      · rename_i hcond hdup
        have hdup' : (start + (tape (k + 1)).i (b.V - start)) ∉ heads := by
          simpa [hm] using hdup
        have hif : (if b.Multiedges = true then heads
            else ((start + (tape (k + 1)).i (b.V - start)) :: heads)) =
            ((start + (tape (k + 1)).i (b.V - start)) :: heads) := if_neg (by simp [hm])
        rw [hif]
        obtain ⟨hnot, hpw⟩ := ih (k + 2) (id + 1)
          ((start + (tape (k + 1)).i (b.V - start)) :: heads)
        constructor
        · intro e he
          rcases List.mem_cons.mp he with h | h
          · subst h; exact hdup'
          · intro hmem
            exact (hnot e h) (List.mem_cons_of_mem _ hmem)
        · refine List.pairwise_cons.mpr ⟨?_, hpw⟩
          intro e he
          intro heq
          exact (hnot e he) (heq ▸ List.mem_cons_self _ _)
    · exact ih _ _ _

/-- With success probability zero and nonnegative float draws, the trial
loop emits no edges and leaves the ID counter unchanged. -/
theorem trials_P0 {α : Type} (b : Binomial α) (tape : ℕ → Draw) (tail start : ℕ)
    (hp : b.P = .val 0) (hf : ∀ k, 0 ≤ (tape k).f) :
    ∀ fuel k id heads,
      (trials b tape tail start fuel k id heads).edges = [] ∧
      (trials b tape tail start fuel k id heads).id = id := by
  intro fuel
  induction fuel with
  | zero => intro k id heads; simp [trials]
  | succ n ih =>
    intro k id heads
    have hlt : Float64.flt (.val (tape k).f) b.P = false := by
      simp [hp, Float64.flt, not_lt.mpr (hf k)]
    simp only [trials, hlt, Bool.false_eq_true, if_false]
    exact ih _ _ _

/-- Every edge emitted from tail `tail` onwards has `V0 ≥ tail`. -/
theorem edgesFrom_V0_lower {α : Type} (b : Binomial α) (tape : ℕ → Draw) :
    ∀ fuel tail k id, ∀ e ∈ (edgesFrom b tape fuel tail k id).edges, tail ≤ e.V0 := by
  intro fuel
  induction fuel with
  | zero => intro tail k id e he; simp [edgesFrom] at he
  | succ n ih =>
    intro tail k id e he
    simp only [edgesFrom] at he
    split at he
    · rcases List.mem_append.mp he with h | h
      · exact (trials_V0 b tape tail 0 b.N k id [] e h).ge
      · exact Nat.le_of_succ_le (ih _ _ _ e h)
    · split at he
      · simp at he
      · rcases List.mem_append.mp he with h | h
        · exact (trials_V0 b tape tail (tail + 1) b.N k id [] e h).ge
        · exact Nat.le_of_succ_le (ih _ _ _ e h)

/-- With a valid tape, every edge emitted from tail `tail` onwards (where
`tail + fuel = V`) has both endpoints below `V`, and a strictly larger
head than tail when loops are disabled. -/
theorem edgesFrom_inrange {α : Type} (b : Binomial α) (tape : ℕ → Draw)
    (hv : ValidTape tape) :
    ∀ fuel tail k id, tail + fuel = b.V →
      ∀ e ∈ (edgesFrom b tape fuel tail k id).edges,
        e.V0 < b.V ∧ e.V1 < b.V ∧ (b.Loops = false → e.V0 < e.V1) := by
  intro fuel
  induction fuel with
  | zero => intro tail k id htf e he; simp [edgesFrom] at he
  | succ n ih =>
    intro tail k id htf e he
    have htail : tail < b.V := by omega
    simp only [edgesFrom] at he
    split at he
    · rename_i hL
      rcases List.mem_append.mp he with h | h
      · have h0 := trials_V0 b tape tail 0 b.N k id [] e h
        have h1 := trials_V1_range b tape tail 0 hv (by omega) b.N k id [] e h
        refine ⟨h0 ▸ htail, h1.2, ?_⟩
        intro hLf; rw [hLf] at hL; exact absurd hL (by simp)
      · exact ih _ _ _ (by omega) e h
    · split at he
      · simp at he
      · rename_i hL hne
        rcases List.mem_append.mp he with h | h
        · have h0 := trials_V0 b tape tail (tail + 1) b.N k id [] e h
          have hs : tail + 1 < b.V := by omega
          have h1 := trials_V1_range b tape tail (tail + 1) hv hs b.N k id [] e h
          exact ⟨h0 ▸ htail, h1.2, fun _ => h0 ▸ h1.1⟩
        · exact ih _ _ _ (by omega) e h

/-- Every bound passed to `IntN` from tail `tail` onwards (where
`tail + fuel = V`) is strictly positive. -/
theorem edgesFrom_bounds_pos {α : Type} (b : Binomial α) (tape : ℕ → Draw) :
    ∀ fuel tail k id, tail + fuel = b.V →
      ∀ x ∈ (edgesFrom b tape fuel tail k id).bounds, 0 < x := by
  intro fuel
  induction fuel with
  | zero => intro tail k id htf x hx; simp [edgesFrom] at hx
  | succ n ih =>
    intro tail k id htf x hx
    have htail : tail < b.V := by omega
    simp only [edgesFrom] at hx
    split at hx
    · rcases List.mem_append.mp hx with h | h
      · have := trials_bounds b tape tail 0 b.N k id [] x h
        omega
      · exact ih _ _ _ (by omega) x h
    · split at hx
      · simp at hx
      · rename_i hL hne
        rcases List.mem_append.mp hx with h | h
        · have := trials_bounds b tape tail (tail + 1) b.N k id [] x h
          omega
        · exact ih _ _ _ (by omega) x h

/-- Edge IDs are consecutive from the incoming counter across all tails. -/
theorem edgesFrom_ids {α : Type} (b : Binomial α) (tape : ℕ → Draw) :
    ∀ fuel tail k id,
      (edgesFrom b tape fuel tail k id).edges.map Edge.ID =
        List.range' id (edgesFrom b tape fuel tail k id).edges.length := by
  intro fuel
  induction fuel with
  | zero => intro tail k id; simp [edgesFrom]
  | succ n ih =>
    intro tail k id
    simp only [edgesFrom]
    split
    · obtain ⟨h1, h2⟩ := trials_ids b tape tail 0 b.N k id []
      simp only [List.map_append, List.length_append, h1, h2, ih]
      simp [Nat.add_comm]
    · split
      · simp
      · obtain ⟨h1, h2⟩ := trials_ids b tape tail (tail + 1) b.N k id []
        simp only [List.map_append, List.length_append, h1, h2, ih]
        simp [Nat.add_comm]

/-- With zero trials per tail, no edges are produced. -/
theorem edgesFrom_N0 {α : Type} (b : Binomial α) (tape : ℕ → Draw) (hN : b.N = 0) :
    ∀ fuel tail k id, (edgesFrom b tape fuel tail k id).edges = [] := by
  intro fuel
  induction fuel with
  | zero => intro tail k id; simp [edgesFrom]
  | succ n ih =>
    intro tail k id
    simp only [edgesFrom, hN]
    split
    · simp [trials, ih]
    · split
      · rfl
      · simp [trials, ih]

/-- With success probability zero and nonnegative float draws, no edges
are produced. -/
theorem edgesFrom_P0 {α : Type} (b : Binomial α) (tape : ℕ → Draw)
    (hp : b.P = .val 0) (hf : ∀ k, 0 ≤ (tape k).f) :
    ∀ fuel tail k id, (edgesFrom b tape fuel tail k id).edges = [] := by
  intro fuel
  induction fuel with
  | zero => intro tail k id; simp [edgesFrom]
  | succ n ih =>
    intro tail k id
    simp only [edgesFrom]
    split
    · have h1 := (trials_P0 b tape tail 0 hp hf b.N k id []).1
      simp [h1, ih]
    · split
      · rfl
      · have h1 := (trials_P0 b tape tail (tail + 1) hp hf b.N k id []).1
        simp [h1, ih]

/-- With multiedges disabled, no two produced edges share both endpoints:
edges of one tail have pairwise different heads, and edges of different
tails have different tails. -/
theorem edgesFrom_pairwise {α : Type} (b : Binomial α) (tape : ℕ → Draw)
    (hm : b.Multiedges = false) :
    ∀ fuel tail k id,
      (edgesFrom b tape fuel tail k id).edges.Pairwise
        (fun e1 e2 => ¬(e1.V0 = e2.V0 ∧ e1.V1 = e2.V1)) := by
  intro fuel
  induction fuel with
  | zero => intro tail k id; simp [edgesFrom]
  | succ n ih =>
    intro tail k id
    simp only [edgesFrom]
    split
    · refine List.pairwise_append.mpr ⟨?_, ih _ _ _, ?_⟩
      · exact ((trials_dedup b tape tail 0 hm b.N k id []).2).imp
          (fun h hc => h hc.2)
      · intro e1 h1 e2 h2 hc
        have ha := trials_V0 b tape tail 0 b.N k id [] e1 h1
        have hb := edgesFrom_V0_lower b tape n (tail + 1) _ _ e2 h2
        omega
    · split
      · simp
      · refine List.pairwise_append.mpr ⟨?_, ih _ _ _, ?_⟩
        · exact ((trials_dedup b tape tail (tail + 1) hm b.N k id []).2).imp
            (fun h hc => h hc.2)
        · intro e1 h1 e2 h2 hc
          have ha := trials_V0 b tape tail (tail + 1) b.N k id [] e1 h1
          have hb := edgesFrom_V0_lower b tape n (tail + 1) _ _ e2 h2
          omega

/-- Edge list has no self-loop: every edge has a head strictly above its
tail and below the vertex count, hence distinct endpoints. -/
def NoSelfLoops {α : Type} (V : ℕ) (l : List (Edge α)) : Prop :=
  ∀ e ∈ l, e.V0 ≠ e.V1 ∧ e.V0 < e.V1 ∧ e.V1 < V

/-- No two edges of the list agree on both endpoints. -/
def NoDupEndpoints {α : Type} (l : List (Edge α)) : Prop :=
  l.Pairwise fun e1 e2 => ¬(e1.V0 = e2.V0 ∧ e1.V1 = e2.V1)

/-- Both endpoints of every edge of the list are valid vertex IDs. -/
def EndpointsInRange {α : Type} (V : ℕ) (l : List (Edge α)) : Prop :=
  ∀ e ∈ l, e.V0 < V ∧ e.V1 < V

/-- Every element of the list is strictly positive. -/
def AllPos (l : List ℕ) : Prop :=
  ∀ x ∈ l, 0 < x

/-- Every vertex of the list is labelled by the given optional labelling
function applied to its ID, and unlabelled when the function is absent. -/
def LabelsFrom {α : Type} (fn : Option (ℕ → α)) (l : List (Vertex α)) : Prop :=
  ∀ v ∈ l, (∀ f, fn = some f → v.Label = some (f v.ID)) ∧ (fn = none → v.Label = none)

/-- A concrete all-zero random tape, valid for all draw contracts. -/
def tape0 : ℕ → Draw := fun _ => ⟨0, fun _ => 0⟩

/-- The all-zero tape satisfies the random-source contracts. -/
theorem tape0_valid : ValidTape tape0 :=
  fun _ => ⟨le_refl 0, by norm_num [tape0], fun _ hn => hn⟩

/-- Claim C1: with Loops disabled, every edge emitted by `Edges` has a head
drawn from `[tail+1, V)`, so no emitted edge has `V0 = V1`, for every
sequence of random draws. -/
theorem C1_no_self_loops {α : Type} (b : Binomial α) (tape : ℕ → Draw)
    (hL : b.Loops = false) (hv : ValidTape tape) :
    NoSelfLoops b.V (b.edges tape) := by
  intro e he
  have h := edgesFrom_inrange b tape hv b.V 0 0 0 (by omega) e he
  have hlt := h.2.2 hL
  exact ⟨Nat.ne_of_lt hlt, hlt, h.2.1⟩

/-- Claim C1 witness: a configuration with V = 3, Loops disabled, on the
all-zero tape. -/
theorem C1_no_self_loops_witness :
    (Binomial.mk 3 2 (.val 1) false false false none none : Binomial Unit).Loops = false ∧
    ValidTape tape0 ∧
    NoSelfLoops (Binomial.mk 3 2 (.val 1) false false false none none : Binomial Unit).V
      ((Binomial.mk 3 2 (.val 1) false false false none none : Binomial Unit).edges tape0) :=
  ⟨rfl, tape0_valid, C1_no_self_loops _ tape0 rfl tape0_valid⟩

/-- Claim C2: with Multiedges disabled, no two edges emitted within one
generation run agree on both the tail `V0` and the head `V1`, for every
sequence of random draws. -/
theorem C2_no_dup_endpoints {α : Type} (b : Binomial α) (tape : ℕ → Draw)
    (hm : b.Multiedges = false) :
    NoDupEndpoints (b.edges tape) :=
  edgesFrom_pairwise b tape hm b.V 0 0 0

/-- Claim C2 witness: a configuration with Multiedges disabled on the
all-zero tape. -/
theorem C2_no_dup_endpoints_witness :
    (Binomial.mk 3 2 (.val 1) true false false none none : Binomial Unit).Multiedges = false ∧
    NoDupEndpoints
      ((Binomial.mk 3 2 (.val 1) true false false none none : Binomial Unit).edges tape0) :=
  ⟨rfl, C2_no_dup_endpoints _ tape0 rfl⟩

/-- Claim C3: `Vertices` produces exactly V vertices whose IDs are exactly
`0, …, V-1` in increasing order, each labelled by `VertexLabel` when that
function is set and unlabelled otherwise. -/
theorem C3_vertices {α : Type} (b : Binomial α) :
    b.vertices.length = b.V ∧
    b.vertices.map Vertex.ID = List.range b.V ∧
    LabelsFrom b.VertexLabel b.vertices := by
  refine ⟨by simp [Binomial.vertices], ?_, ?_⟩
  · have hcomp : (Vertex.ID ∘ fun i =>
        (⟨i, Option.map (fun f => f i) b.VertexLabel⟩ : Vertex α)) = id := rfl
    simp [Binomial.vertices, List.map_map, hcomp]
  · intro v hv
    simp only [Binomial.vertices, List.mem_map, List.mem_range] at hv
    obtain ⟨i, hi, rfl⟩ := hv
    constructor
    · intro f hf; simp [hf]
    · intro hf; simp [hf]

/-- Claim C4: V = 0 yields zero vertices and zero edges; N = 0 or P = 0
yields exactly V vertices and zero edges, for every sequence of random
draws. -/
theorem C4_edge_cases {α : Type} (b : Binomial α) (tape : ℕ → Draw)
    (hf : ∀ k, 0 ≤ (tape k).f) :
    (b.V = 0 → b.vertices = [] ∧ b.edges tape = []) ∧
    ((b.N = 0 ∨ b.P = .val 0) → b.vertices.length = b.V ∧ b.edges tape = []) := by
  constructor
  · intro hV
    constructor
    · simp [Binomial.vertices, hV]
    · simp [Binomial.edges, hV, edgesFrom]
  · intro h
    refine ⟨by simp [Binomial.vertices], ?_⟩
    rcases h with hN | hP
    · exact edgesFrom_N0 b tape hN b.V 0 0 0
    · exact edgesFrom_P0 b tape hP hf b.V 0 0 0

/-- Claim C4 witness: the all-zero tape against a V = 0 configuration and
a P = 0 configuration. -/
theorem C4_edge_cases_witness :
    ((Binomial.mk 0 5 (.val 1) true true false none none : Binomial Unit).vertices = [] ∧
     (Binomial.mk 0 5 (.val 1) true true false none none : Binomial Unit).edges tape0 = []) ∧
    ((Binomial.mk 3 4 (.val 0) true true false none none : Binomial Unit).vertices.length =
       (Binomial.mk 3 4 (.val 0) true true false none none : Binomial Unit).V ∧
     (Binomial.mk 3 4 (.val 0) true true false none none : Binomial Unit).edges tape0 = []) :=
  ⟨(C4_edge_cases _ tape0 fun _ => le_refl 0).1 rfl,
   (C4_edge_cases _ tape0 fun _ => le_refl 0).2 (Or.inr rfl)⟩

/-- Claim C5: for every configuration and valid random tape, every bound
passed to the uniform integer draw is strictly positive (so no draw can
fail) and every emitted edge has both endpoints in `[0, V)`. -/
theorem C5_safety {α : Type} (b : Binomial α) (tape : ℕ → Draw)
    (hv : ValidTape tape) :
    AllPos (b.edgesBounds tape) ∧ EndpointsInRange b.V (b.edges tape) := by
  constructor
  · intro x hx
    exact edgesFrom_bounds_pos b tape b.V 0 0 0 (by omega) x hx
  · intro e he
    have h := edgesFrom_inrange b tape hv b.V 0 0 0 (by omega) e he
    exact ⟨h.1, h.2.1⟩

/-- Claim C5 witness: a loops-enabled configuration on the all-zero tape. -/
theorem C5_safety_witness :
    AllPos ((Binomial.mk 3 2 (.val 1) true true true none none : Binomial Unit).edgesBounds tape0) ∧
    EndpointsInRange (Binomial.mk 3 2 (.val 1) true true true none none : Binomial Unit).V
      ((Binomial.mk 3 2 (.val 1) true true true none none : Binomial Unit).edges tape0) :=
  C5_safety _ tape0 tape0_valid

/-- Claim C6: the IDs of the edges emitted by one generation run are
exactly `0, 1, …, count-1` in order: strictly increasing from 0, and a
discarded trial consumes no ID. -/
theorem C6_edge_ids {α : Type} (b : Binomial α) (tape : ℕ → Draw) :
    (b.edges tape).map Edge.ID = List.range (b.edges tape).length := by
  rw [List.range_eq_range']
  exact edgesFrom_ids b tape b.V 0 0 0

/-- Claim C7 counterexample: `NewBinomial(0, 0, NaN)` succeeds although NaN
is outside the interval [0,1], so construction does not fail for every
probability outside [0,1]. -/
theorem C7_counterexample :
    NewBinomial Unit 0 0 Float64.nan =
      .ok ⟨0, 0, Float64.nan, false, false, false, none, none⟩ ∧
    ¬ Float64.mem01 Float64.nan :=
  ⟨rfl, fun h => h⟩

/-- Claim C7 as amended: `NewBinomial(v, n, p)` returns an error iff
`v < 0`, `n < 0`, or `p` is a number outside [0,1] under IEEE comparison
(so NaN is accepted); on success the returned generator's V, N, P fields
equal the given parameters. -/
theorem C7_construction {α : Type} (v n : ℤ) (p : Float64) :
    ((∃ msg, NewBinomial α v n p = .error msg) ↔
      (v < 0 ∨ n < 0 ∨ ∃ q, p = Float64.val q ∧ (q < 0 ∨ 1 < q))) ∧
    (∀ b, NewBinomial α v n p = .ok b →
      (b.V : ℤ) = v ∧ (b.N : ℤ) = n ∧ b.P = p) := by
  unfold NewBinomial
  split_ifs with h1 h2 h3
  · refine ⟨⟨fun _ => Or.inl h1, fun _ => ⟨_, rfl⟩⟩, ?_⟩
    intro b hb; cases hb
  · refine ⟨⟨fun _ => Or.inr (Or.inl h2), fun _ => ⟨_, rfl⟩⟩, ?_⟩
    intro b hb; cases hb
  · refine ⟨⟨fun _ => Or.inr (Or.inr ?_), fun _ => ⟨_, rfl⟩⟩, ?_⟩
    · cases p with
      | val q =>
        refine ⟨q, rfl, ?_⟩
        simpa [Float64.flt] using h3
      | nan => simp [Float64.flt] at h3
    · intro b hb; cases hb
  · constructor
    · constructor
      · rintro ⟨msg, hmsg⟩; cases hmsg
      · rintro (h | h | ⟨q, rfl, hq⟩)
        · exact absurd h h1
        · exact absurd h h2
        · exact absurd (by simpa [Float64.flt] using hq) h3
    · rintro b hb
      cases hb
      exact ⟨Int.toNat_of_nonneg (not_lt.mp h1), Int.toNat_of_nonneg (not_lt.mp h2), rfl⟩

/-- Claim C7 witness: valid parameters (2, 3, 1/2) construct a generator
whose fields equal them, and the error condition does not hold there. -/
theorem C7_construction_witness :
    ((Binomial.mk 2 3 (Float64.val (1/2)) false false false none none : Binomial Unit).V : ℤ) = 2 ∧
    ((Binomial.mk 2 3 (Float64.val (1/2)) false false false none none : Binomial Unit).N : ℤ) = 3 ∧
    (Binomial.mk 2 3 (Float64.val (1/2)) false false false none none : Binomial Unit).P =
      Float64.val (1/2) := by
  apply (C7_construction 2 3 (Float64.val (1/2))).2
    ⟨2, 3, Float64.val (1/2), false, false, false, none, none⟩
  norm_num [NewBinomial, Float64.flt]
  exact ⟨rfl, rfl⟩

/-- Claim C8: with V = 1, N = 2, P = 1, Loops and Multiedges enabled,
every valid sequence of random draws yields exactly two self-loop edges
on vertex 0, with IDs 0 and 1. -/
theorem C8_two_self_loops (tape : ℕ → Draw) (hv : ValidTape tape) :
    (Binomial.mk 1 2 (.val 1) true true false none none : Binomial Unit).edges tape =
      [⟨0, 0, 0, false, none⟩, ⟨1, 0, 0, false, none⟩] := by
  have e0 : Float64.flt (.val (tape 0).f) (.val 1) = true := by
    simp [Float64.flt, (hv 0).2.1]
  have e2 : Float64.flt (.val (tape 2).f) (.val 1) = true := by
    simp [Float64.flt, (hv 2).2.1]
  have i1 : (tape 1).i 1 = 0 := Nat.lt_one_iff.mp ((hv 1).2.2 1 Nat.one_pos)
  have i3 : (tape 3).i 1 = 0 := Nat.lt_one_iff.mp ((hv 3).2.2 1 Nat.one_pos)
  simp [Binomial.edges, edgesFrom, trials, e0, e2, i1, i3]

/-- Claim C8 witness: the scenario on the all-zero tape. -/
theorem C8_two_self_loops_witness :
    ValidTape tape0 ∧
    (Binomial.mk 1 2 (.val 1) true true false none none : Binomial Unit).edges tape0 =
      [⟨0, 0, 0, false, none⟩, ⟨1, 0, 0, false, none⟩] :=
  ⟨tape0_valid, C8_two_self_loops tape0 tape0_valid⟩

/-- Claim C9: generation is deterministic in the random source: two runs
with equal parameters, flags and labelling functions consuming pointwise
equal draw streams produce equal vertex and edge sequences. -/
theorem C9_deterministic {α : Type} (b1 b2 : Binomial α) (t1 t2 : ℕ → Draw)
    (hV : b1.V = b2.V) (hN : b1.N = b2.N) (hP : b1.P = b2.P)
    (hL : b1.Loops = b2.Loops) (hM : b1.Multiedges = b2.Multiedges)
    (hD : b1.Directed = b2.Directed) (hVL : b1.VertexLabel = b2.VertexLabel)
    (hEL : b1.EdgeLabel = b2.EdgeLabel) (ht : ∀ k, t1 k = t2 k) :
    b1.vertices = b2.vertices ∧ b1.edges t1 = b2.edges t2 := by
  have hb : b1 = b2 := by cases b1; cases b2; simp_all
  have htape : t1 = t2 := funext ht
  subst hb; subst htape
  exact ⟨rfl, rfl⟩

/-- Claim C9 witness: one configuration run on two syntactically different
but pointwise equal tapes gives identical edge sequences. -/
theorem C9_deterministic_witness :
    (Binomial.mk 2 1 (.val 1) false false false none none : Binomial Unit).vertices =
      (Binomial.mk 2 1 (.val 1) false false false none none : Binomial Unit).vertices ∧
    (Binomial.mk 2 1 (.val 1) false false false none none : Binomial Unit).edges tape0 =
      (Binomial.mk 2 1 (.val 1) false false false none none : Binomial Unit).edges
        (fun _ => ⟨0, fun _ => 0 + 0⟩) :=
  C9_deterministic _ _ tape0 (fun _ => ⟨0, fun _ => 0 + 0⟩)
    rfl rfl rfl rfl rfl rfl rfl rfl (fun _ => rfl)

/-- Claim C10: `NewBinomial(v, n, NaN)` with nonnegative `v`, `n` succeeds
and returns a generator, because both IEEE comparisons `NaN < 0` and
`NaN > 1` in the validation evaluate to false. -/
theorem C10_nan_accepted {α : Type} (v n : ℤ) (hv : 0 ≤ v) (hn : 0 ≤ n) :
    NewBinomial α v n Float64.nan =
      .ok ⟨v.toNat, n.toNat, Float64.nan, false, false, false, none, none⟩ ∧
    Float64.flt Float64.nan (.val 0) = false ∧
    Float64.flt (.val 1) Float64.nan = false := by
  refine ⟨?_, rfl, rfl⟩
  unfold NewBinomial
  rw [if_neg (not_lt.mpr hv), if_neg (not_lt.mpr hn), if_neg (by simp [Float64.flt])]

/-- Claim C10 witness: `NewBinomial(0, 0, NaN)` returns a generator. -/
theorem C10_nan_accepted_witness :
    (0 : ℤ) ≤ 0 ∧
    NewBinomial Unit 0 0 Float64.nan =
      .ok ⟨(0 : ℤ).toNat, (0 : ℤ).toNat, Float64.nan, false, false, false, none, none⟩ :=
  ⟨le_refl 0, (C10_nan_accepted 0 0 (le_refl 0) (le_refl 0)).1⟩

end Randgraph
